import Mathlib

/-!
Verification of the connected-component labeling program `components.py`.

The program scans a binary image in raster order, labels connected
foreground regions with a flat union-find (`ComponentMap`), and renders
each region in a distinct HSV-derived color, keeping the background black.

The definitions below are a shallow embedding of the source:
Python dicts become association lists (insertion order preserved),
Python `None` becomes `Option.none`, Python floats in the color generator
become exact rationals, and the `assert` / `IndexError` failure modes of
`merge_components` become an `Except` error type.
-/

namespace Components

/-- Association-list lookup, modelling `dict.get` / `dict.__getitem__`
for dicts whose keys are kept unique (first binding wins). -/
def alookup {α β : Type} [DecidableEq α] : List (α × β) → α → Option β
  | [], _ => none
  | e :: l, k => if e.1 = k then some e.2 else alookup l k

/-- Association-list update, modelling `d[k] = v` on a Python dict:
an existing binding is overwritten in place, otherwise the new binding is
appended (dicts preserve insertion order). -/
def aset {α β : Type} [DecidableEq α] (l : List (α × β)) (k : α) (v : β) : List (α × β) :=
  if l.any (fun e => e.1 = k) then
    l.map (fun e => if e.1 = k then (k, v) else e)
  else
    l ++ [(k, v)]

/-- The state of `ComponentMap`: `_next_key` counter and the
`component_map` dict from points to component numbers. -/
structure CMap where
  next_key : ℕ
  component_map : List ((ℕ × ℕ) × ℕ)
deriving DecidableEq, Repr

/-- `ComponentMap.__init__`: counter starts at 1, empty dict. -/
def CMap.init : CMap := ⟨1, []⟩

/-- `ComponentMap.get_component`: `self.component_map.get(point)`,
`none` for points with no entry (background). -/
def getComponent (m : CMap) (point : ℕ × ℕ) : Option ℕ :=
  alookup m.component_map point

/-- `ComponentMap.get_components`: map `get_component` over a point list. -/
def getComponents (m : CMap) (points : List (ℕ × ℕ)) : List (Option ℕ) :=
  points.map (getComponent m)

/-- `ComponentMap.__len__`: `len(set(self.component_map.values()))`,
the number of distinct stored component values. -/
def lenCM (m : CMap) : ℕ :=
  (m.component_map.map Prod.snd).dedup.length

/-- `ComponentMap._merge_set_into_base`: rewrite every entry whose value
equals `mergeFrom` to `base`, in place. -/
def mergeSetIntoBase (m : CMap) (mergeFrom base : ℕ) : CMap :=
  { m with component_map :=
      m.component_map.map (fun e => if e.2 = mergeFrom then (e.1, base) else e) }

/-- The two failure modes of `merge_components`: the `assert None not in
cset` assertion, and the `clist[0]` IndexError on an empty input. -/
inductive MergeError where
  | assertionFailed
  | indexError
deriving DecidableEq, Repr

/-- `ComponentMap.merge_components`: deduplicate the input
(`cset = set(components)`), assert the background sentinel is absent,
pick the first element as the canonical base (`clist[0]`, an IndexError
when empty), and merge every other element into it.  After the sentinel
check every element of `cset` is a `some`, so `filterMap id` is exactly
`list(cset)`. -/
def mergeComponents (m : CMap) (components : List (Option ℕ)) :
    Except MergeError (ℕ × CMap) :=
  let cset := components.dedup
  if none ∈ cset then
    .error .assertionFailed
  else
    match cset.filterMap id with
    | [] => .error .indexError
    | base :: rest =>
        .ok (base, rest.foldl (fun acc c => mergeSetIntoBase acc c base) m)

/-- `ComponentMap.add`: `self.component_map[point] = component`. -/
def addPoint (m : CMap) (point : ℕ × ℕ) (component : ℕ) : CMap :=
  { m with component_map := aset m.component_map point component }

/-- `ComponentMap.make_component`: bind the point to `_next_key`,
increment the counter, return the new component number. -/
def makeComponent (m : CMap) (point : ℕ × ℕ) : ℕ × CMap :=
  (m.next_key, ⟨m.next_key + 1, aset m.component_map point m.next_key⟩)

/-- `get_prior_neighbors`: the in-bounds neighbors of `pt` that come
before it in raster order (the three on the previous row and the one to
the left), emitted in source order. -/
def getPriorNeighbors (pt : ℕ × ℕ) (size : ℕ × ℕ) : List (ℕ × ℕ) :=
  let x := pt.1
  let y := pt.2
  (if x > 0 ∧ y > 0 then [(x - 1, y - 1)] else []) ++
  (if y > 0 then
    [(x, y - 1)] ++ (if x < size.1 - 1 then [(x + 1, y - 1)] else [])
  else []) ++
  (if x > 0 then [(x - 1, y)] else [])

/-- `iterpixels`: all coordinates of a `w × h` grid in raster order
(row-major, top to bottom, left to right). -/
def iterpixels (w h : ℕ) : List (ℕ × ℕ) :=
  (List.range h).flatMap (fun y => (List.range w).map (fun x => (x, y)))

/-- A mode-1 image: its size and a boolean pixel grid
(`getpixel` nonzero = foreground). -/
structure Image1 where
  width : ℕ
  height : ℕ
  pixel : ℕ × ℕ → Bool

/-- Python truthiness on `int or None` values, as used by
`filter(None, neighbor_components)`: `None` and `0` are falsy. -/
def pyTruthy : Option ℕ → Bool
  | none => false
  | some v => v ≠ 0

/-- The body of the `find_components` loop for one pixel `p`:
skip background pixels; otherwise look up the prior neighbors' components,
drop the falsy ones, and either merge-and-add or make a fresh component. -/
def stepPixel (im : Image1) (cmap : CMap) (p : ℕ × ℕ) : Except MergeError CMap :=
  if im.pixel p = false then
    .ok cmap
  else
    let neighbors := getPriorNeighbors p (im.width, im.height)
    let neighborComponents := getComponents cmap neighbors
    let active := neighborComponents.filter pyTruthy
    if active ≠ [] then do
      let r ← mergeComponents cmap active
      .ok (addPoint r.2 p r.1)
    else
      .ok (makeComponent cmap p).2

/-- `find_components`: fold the per-pixel step over all pixels in raster
order, starting from a fresh `ComponentMap`. -/
def findComponents (im : Image1) : Except MergeError CMap :=
  (iterpixels im.width im.height).foldlM (stepPixel im) CMap.init

/-! ### The color generator and the renderer

Python floats are modelled as exact rationals; `int(x)` on a nonnegative
float is truncation, i.e. `Int.tdiv` of numerator by denominator. -/

/-- Python `int(x)` on a rational: truncation toward zero. -/
def pyInt (q : ℚ) : ℤ := Int.tdiv q.num (q.den : ℤ)

/-- `colorsys.hsv_to_rgb`, translated from the CPython source. -/
def hsvToRgb (h s v : ℚ) : ℚ × ℚ × ℚ :=
  if s = 0 then (v, v, v)
  else
    let i : ℤ := pyInt (h * 6)
    let f : ℚ := h * 6 - (i : ℚ)
    let p : ℚ := v * (1 - s)
    let q : ℚ := v * (1 - s * f)
    let t : ℚ := v * (1 - s * (1 - f))
    let j := i % 6
    if j = 0 then (v, t, p)
    else if j = 1 then (q, v, p)
    else if j = 2 then (p, q, v)
    else if j = 3 then (p, v, q)
    else if j = 4 then (t, p, v)
    else (v, p, q)

/-- `tuple(map(lambda x: int(x*255), rgb))`. -/
def rgb255 (c : ℚ × ℚ × ℚ) : ℤ × ℤ × ℤ :=
  (pyInt (c.1 * 255), pyInt (c.2.1 * 255), pyInt (c.2.2 * 255))

/-- `ColorGen.__next__`: advance the hue by the golden-ratio conjugate
modulo 1 (`self.h = (self.h + 0.61803) % 1`), then convert HSV
(saturation 0.7, value 0.8) to a 0–255 RGB triple.  Returns the new hue
state together with the emitted color. -/
def colorNext (h : ℚ) : ℚ × (ℤ × ℤ × ℤ) :=
  let h2 := Int.fract (h + 61803 / 100000)
  (h2, rgb255 (hsvToRgb h2 (7 / 10) (4 / 5)))

/-- The hue state of a `ColorGen` after `n` calls to `__next__`
(`self.h` starts at 0). -/
def hueAfter : ℕ → ℚ
  | 0 => 0
  | n + 1 => (colorNext (hueAfter n)).1

/-- The color produced by the `k`-th draw (0-indexed) from a fresh
`ColorGen`. -/
def colorDraw (k : ℕ) : ℤ × ℤ × ℤ :=
  (colorNext (hueAfter k)).2

/-- The renderer's state during `color_code_components`: the color
generator's hue and the `color_map` defaultdict (keyed by component,
`None` for background), which starts out holding `None ↦ (0,0,0)`. -/
structure RenderState where
  hue : ℚ
  table : List (Option ℕ × (ℤ × ℤ × ℤ))
deriving DecidableEq, Repr

/-- One pixel of the render pass: look the pixel's component up in
`color_map`; a missing component draws the next color from the generator
and is remembered (defaultdict semantics).  The emitted color is appended
to `color_data`. -/
def renderStep (m : CMap) (acc : RenderState × List (ℤ × ℤ × ℤ)) (p : ℕ × ℕ) :
    RenderState × List (ℤ × ℤ × ℤ) :=
  let component := getComponent m p
  match alookup acc.1.table component with
  | some col => (acc.1, acc.2 ++ [col])
  | none =>
      let r := colorNext acc.1.hue
      (⟨r.1, acc.1.table ++ [(component, r.2)]⟩, acc.2 ++ [r.2])

/-- `color_code_components` as a state fold: fresh generator (hue 0),
`color_map[None] = (0,0,0)`, then one pass over the pixels in raster
order.  Returns the final state and the `color_data` list handed to
`Image.putdata` (row-major, matching `iterpixels`). -/
def renderAll (w h : ℕ) (m : CMap) : RenderState × List (ℤ × ℤ × ℤ) :=
  (iterpixels w h).foldl (renderStep m) (⟨0, [(none, (0, 0, 0))]⟩, [])

/-- The pixel data of the output image of `color_code_components`. -/
def colorCodeComponents (w h : ℕ) (m : CMap) : List (ℤ × ℤ × ℤ) :=
  (renderAll w h m).2

/-- The raster index of a coordinate: the position of `p` in
`iterpixels w _` and hence in the `putdata` list. -/
def rasterIndex (w : ℕ) (p : ℕ × ℕ) : ℕ := p.2 * w + p.1

/-- The rendered color of coordinate `p` in the output image. -/
def renderedAt (w h : ℕ) (m : CMap) (p : ℕ × ℕ) : ℤ × ℤ × ℤ :=
  (colorCodeComponents w h m).getD (rasterIndex w p) (0, 0, 0)

/-! ### The command-line surface of `main` -/

/-- What `main` does before any image I/O: either the `usage()` path
(print the usage text, then `sys.exit()`) or running the core. -/
inductive MainStep where
  | usageExit (exitCode : ℕ)
  | runCore
deriving DecidableEq, Repr

/-- The argument check at the top of `main`: `len(sys.argv) != 3` takes
the `usage()` path.  `usage()` calls `sys.exit()` with no argument, which
raises `SystemExit(None)` and terminates the process with exit status 0. -/
def mainControl (argv : List String) : MainStep :=
  if argv.length ≠ 3 then .usageExit 0 else .runCore

/-- The component count printed by `main` on success:
`len(component_map)`. -/
def mainPrinted (m : CMap) : ℕ := lenCM m

/-! ### Specification-side definitions: 8-way connectivity and the
connected components of a grid. -/

/-- Two distinct cells are 8-adjacent when their coordinates differ by at
most one in each axis. -/
def adj8 (a b : ℕ × ℕ) : Prop :=
  a ≠ b ∧ (a.1 = b.1 ∨ a.1 + 1 = b.1 ∨ b.1 + 1 = a.1) ∧
    (a.2 = b.2 ∨ a.2 + 1 = b.2 ∨ b.2 + 1 = a.2)

instance (a b : ℕ × ℕ) : Decidable (adj8 a b) := by
  unfold adj8; infer_instance

/-- Connectivity within a cell set `F`: the reflexive-transitive closure
of 8-adjacency restricted to `F`. -/
def conn (F : ℕ × ℕ → Prop) : ℕ × ℕ → ℕ × ℕ → Prop :=
  Relation.ReflTransGen (fun a b => F a ∧ F b ∧ adj8 a b)

/-- The foreground cells of an image: in-bounds coordinates whose pixel
is set. -/
def fgCell (im : Image1) (p : ℕ × ℕ) : Prop :=
  p.1 < im.width ∧ p.2 < im.height ∧ im.pixel p = true

instance (im : Image1) (p : ℕ × ℕ) : Decidable (fgCell im p) := by
  unfold fgCell; infer_instance

/-- The connected component of `p` within the cell set `F`. -/
def componentOf (F : ℕ × ℕ → Prop) (p : ℕ × ℕ) : Set (ℕ × ℕ) :=
  {q | conn F p q}

/-- The maximal connected foreground regions of an image under
8-connectivity. -/
def componentsOf (im : Image1) : Set (Set (ℕ × ℕ)) :=
  {C | ∃ p, fgCell im p ∧ C = componentOf (fgCell im) p}

/-- The number of maximal connected foreground regions. -/
noncomputable def ncomponents (im : Image1) : ℕ :=
  (componentsOf im).ncard

/-- Raster (row-major) order on coordinates. -/
def rasterLt (a b : ℕ × ℕ) : Prop :=
  a.2 < b.2 ∨ (a.2 = b.2 ∧ a.1 < b.1)

instance (a b : ℕ × ℕ) : Decidable (rasterLt a b) := by
  unfold rasterLt; infer_instance

/-- The causal neighbor set demanded by the spec for 8-connectivity: the
in-bounds subset of `{(x-1,y-1), (x,y-1), (x+1,y-1), (x-1,y)}`, written
without natural-number subtraction. -/
def specCausal8 (p : ℕ × ℕ) (w h : ℕ) (q : ℕ × ℕ) : Prop :=
  q.1 < w ∧ q.2 < h ∧
    ((q.1 + 1 = p.1 ∧ q.2 + 1 = p.2) ∨ (q.1 = p.1 ∧ q.2 + 1 = p.2) ∨
     (q.1 = p.1 + 1 ∧ q.2 + 1 = p.2) ∨ (q.1 + 1 = p.1 ∧ q.2 = p.2))

instance (p : ℕ × ℕ) (w h : ℕ) (q : ℕ × ℕ) : Decidable (specCausal8 p w h q) := by
  unfold specCausal8; infer_instance

/-- The causal neighbor set demanded by the spec for 4-connectivity: the
in-bounds subset of `{(x,y-1), (x-1,y)}`. -/
def specCausal4 (p : ℕ × ℕ) (w h : ℕ) (q : ℕ × ℕ) : Prop :=
  q.1 < w ∧ q.2 < h ∧
    ((q.1 = p.1 ∧ q.2 + 1 = p.2) ∨ (q.1 + 1 = p.1 ∧ q.2 = p.2))

instance (p : ℕ × ℕ) (w h : ℕ) (q : ℕ × ℕ) : Decidable (specCausal4 p w h q) := by
  unfold specCausal4; infer_instance

/-- Concrete fixture: a 2×1 all-foreground image (two horizontally
adjacent white pixels). -/
def imgPair : Image1 := ⟨2, 1, fun _ => true⟩

/-- Concrete fixture: a 1×1 all-background image. -/
def imgBlack : Image1 := ⟨1, 1, fun _ => false⟩

/-- The foreground cells among an already-processed raster prefix
`done`. -/
def pfg (im : Image1) (done : List (ℕ × ℕ)) (q : ℕ × ℕ) : Prop :=
  q ∈ done ∧ im.pixel q = true

/-- The scan invariant of `find_components` after processing the raster
prefix `done`: the map's domain is exactly the processed foreground, keys
are unique, values are positive and below the `_next_key` counter, equal
labels imply connectivity within the processed foreground (`sound`), and
adjacent processed foreground cells carry equal labels (`complete`). -/
structure ScanInv (im : Image1) (done : List (ℕ × ℕ)) (m : CMap) : Prop where
  nkPos : 1 ≤ m.next_key
  dom : ∀ q, (getComponent m q).isSome ↔ pfg im done q
  keysNodup : (m.component_map.map Prod.fst).Nodup
  valPos : ∀ e ∈ m.component_map, 0 < e.2
  valLt : ∀ e ∈ m.component_map, e.2 < m.next_key
  sound : ∀ a b v, getComponent m a = some v → getComponent m b = some v →
    conn (pfg im done) a b
  complete : ∀ a b, pfg im done a → pfg im done b → adj8 a b →
    getComponent m a = getComponent m b

/-- Value-level effect of a whole `merge_components` call with canonical
label `base`: values occurring in the merged input collapse to `base`,
all other values are untouched. -/
def canonValue (comps : List (Option ℕ)) (base v : ℕ) : ℕ :=
  if some v ∈ comps then base else v

/-! ## Lemmas about `merge_components` -/

lemma foldMerge_eq (m : CMap) (base : ℕ) (rest : List ℕ) :
    rest.foldl (fun acc c => mergeSetIntoBase acc c base) m =
      { m with component_map :=
          m.component_map.map (fun e => if e.2 ∈ rest then (e.1, base) else e) } := by
  induction rest generalizing m with
  | nil =>
    simp [mergeSetIntoBase]
  | cons c cs ih =>
    simp only [List.foldl_cons]
    rw [ih]
    simp only [mergeSetIntoBase, List.map_map]
    congr 1
    apply List.map_congr_left
    intro e _
    by_cases hc : e.2 = c
    · by_cases hb : (base : ℕ) ∈ cs <;> simp [hc, Function.comp, hb]
    · by_cases hcs : e.2 ∈ cs <;> simp [hc, Function.comp, hcs]

lemma mem_clist_iff (comps : List (Option ℕ)) (v : ℕ) :
    v ∈ comps.dedup.filterMap id ↔ some v ∈ comps := by
  simp [List.mem_filterMap]

lemma clist_nodup (comps : List (Option ℕ)) : (comps.dedup.filterMap id).Nodup := by
  refine List.Nodup.filterMap ?_ comps.nodup_dedup
  intro a a' b h1 h2
  simp only [id] at h1 h2
  rw [h1, h2]

/-- Closed form for a successful `merge_components`: the canonical label
is the head of the deduplicated input, and every entry whose value occurs
in the input is rewritten to it. -/
lemma mergeComponents_ok (m : CMap) (comps : List (Option ℕ))
    (hne : comps ≠ []) (hnone : none ∉ comps) :
    ∃ base, some base ∈ comps ∧
      mergeComponents m comps =
        .ok (base, ⟨m.next_key, m.component_map.map (fun e => (e.1, canonValue comps base e.2))⟩) := by
  have hnone2 : none ∉ comps.dedup := fun h => hnone (List.mem_dedup.mp h)
  obtain ⟨o, ho⟩ := List.exists_mem_of_ne_nil comps hne
  obtain ⟨v, rfl⟩ : ∃ v, o = some v := by
    cases o with
    | none => exact absurd ho hnone
    | some v => exact ⟨v, rfl⟩
  have hv : v ∈ comps.dedup.filterMap id := (mem_clist_iff comps v).mpr ho
  obtain ⟨base, rest, hsplit⟩ : ∃ base rest, comps.dedup.filterMap id = base :: rest := by
    cases h : comps.dedup.filterMap id with
    | nil => rw [h] at hv; exact absurd hv (List.not_mem_nil v)
    | cons base rest => exact ⟨base, rest, rfl⟩
  have hbase : some base ∈ comps := by
    have : base ∈ comps.dedup.filterMap id := by rw [hsplit]; exact List.mem_cons_self _ _
    exact (mem_clist_iff comps base).mp this
  refine ⟨base, hbase, ?_⟩
  have hnd : (base :: rest).Nodup := hsplit ▸ clist_nodup comps
  have hbr : base ∉ rest := (List.nodup_cons.mp hnd).1
  unfold mergeComponents
  rw [if_neg hnone2, hsplit]
  simp only [foldMerge_eq]
  refine congrArg (fun v => Except.ok (base, v)) ?_
  refine congrArg (fun l => (⟨m.next_key, l⟩ : CMap)) ?_
  apply List.map_congr_left
  intro e _
  by_cases hin : some e.2 ∈ comps
  · have hmem : e.2 ∈ base :: rest := hsplit ▸ (mem_clist_iff comps e.2).mpr hin
    rcases List.mem_cons.mp hmem with h | h
    · have hnr : e.2 ∉ rest := h ▸ hbr
      simp [hnr, canonValue, hin, ← h]
    · simp [h, canonValue, hin]
  · have hmem : e.2 ∉ base :: rest := fun h =>
      hin ((mem_clist_iff comps e.2).mp (hsplit ▸ h))
    have hr : e.2 ∉ rest := fun h => hmem (List.mem_cons_of_mem _ h)
    simp [hr, canonValue, hin]

/-! ## The scan never hits a `merge_components` failure -/

lemma stepPixel_ok (im : Image1) (cmap : CMap) (p : ℕ × ℕ) :
    ∃ m2, stepPixel im cmap p = .ok m2 := by
  unfold stepPixel
  by_cases hp : im.pixel p = false
  · exact ⟨cmap, by rw [if_pos hp]⟩
  · rw [if_neg hp]
    by_cases hne :
        (getComponents cmap (getPriorNeighbors p (im.width, im.height))).filter pyTruthy ≠ []
    · have hnone :
          none ∉ (getComponents cmap (getPriorNeighbors p (im.width, im.height))).filter pyTruthy := by
        intro h
        have := List.of_mem_filter h
        simp [pyTruthy] at this
      obtain ⟨base, _, heq⟩ := mergeComponents_ok cmap _ hne hnone
      rw [if_pos hne]
      exact ⟨_, by rw [heq]; rfl⟩
    · rw [if_neg hne]
      exact ⟨_, rfl⟩

lemma foldlM_step_ok (im : Image1) (l : List (ℕ × ℕ)) (m : CMap) :
    ∃ m2, l.foldlM (stepPixel im) m = .ok m2 := by
  induction l generalizing m with
  | nil => exact ⟨m, rfl⟩
  | cons p l ih =>
    obtain ⟨m1, h1⟩ := stepPixel_ok im m p
    obtain ⟨m2, h2⟩ := ih m1
    exact ⟨m2, by rw [List.foldlM_cons, h1]; exact h2⟩

lemma findComponents_ok (im : Image1) : ∃ m, findComponents im = .ok m :=
  foldlM_step_ok im _ CMap.init

/-! ## The color sequence -/

lemma fract_add_fract_left (a b : ℚ) :
    Int.fract (Int.fract a + b) = Int.fract (a + b) := by
  have h : Int.fract a + b = (a + b) - (⌊a⌋ : ℤ) := by
    rw [Int.fract]; ring
  rw [h, Int.fract_sub_int]

lemma hueAfter_eq (n : ℕ) :
    hueAfter n = Int.fract ((n : ℚ) * (61803 / 100000)) := by
  induction n with
  | zero => simp [hueAfter]
  | succ n ih =>
    show Int.fract (hueAfter n + 61803 / 100000) = _
    rw [ih, fract_add_fract_left]
    congr 1
    push_cast
    ring

lemma colorDraw_periodic (k : ℕ) : colorDraw (k + 100000) = colorDraw k := by
  unfold colorDraw colorNext
  have h : Int.fract (hueAfter (k + 100000) + 61803 / 100000) =
      Int.fract (hueAfter k + 61803 / 100000) := by
    rw [hueAfter_eq, hueAfter_eq, fract_add_fract_left, fract_add_fract_left,
      Int.fract_eq_fract]
    exact ⟨61803, by push_cast; ring⟩
  simp only [h]

/-! ## Claim theorems -/

/-- C3: for every non-empty input without the background sentinel,
`merge_components` returns a canonical label that is an element of the
input set, every pre-existing entry whose value is a non-canonical element
of the set is rewritten to the canonical label, and entries whose values
are outside the set are unchanged (the closed form
`canonValue comps base` rewrites exactly the values occurring in the input
to `base` and fixes all others, keeping keys and order). -/
theorem mergeComponents_canonical (comps : List (Option ℕ)) (m : CMap)
    (hne : comps ≠ []) (hnone : none ∉ comps) :
    ∃ base m2, mergeComponents m comps = .ok (base, m2) ∧
      some base ∈ comps ∧
      (∀ e ∈ m2.component_map, some e.2 ∈ comps → e.2 = base) ∧
      m2.component_map =
        m.component_map.map (fun e => (e.1, canonValue comps base e.2)) := by
  obtain ⟨base, hb, heq⟩ := mergeComponents_ok m comps hne hnone
  refine ⟨base, _, heq, hb, ?_, rfl⟩
  intro e he hin
  simp only [List.mem_map] at he
  obtain ⟨e0, _, rfl⟩ := he
  by_cases h : some e0.2 ∈ comps
  · simp [canonValue, h]
  · simp only [canonValue, if_neg h] at hin
    exact absurd hin h

/-- Witness for C3 at a concrete merge of labels 2 and 1 over a
three-entry map. -/
theorem mergeComponents_canonical_witness :
    ([some 2, some 1] : List (Option ℕ)) ≠ [] ∧
      (none ∉ ([some 2, some 1] : List (Option ℕ))) ∧
      ∃ base m2,
        mergeComponents ⟨3, [((0, 0), 1), ((1, 0), 2), ((2, 0), 7)]⟩ [some 2, some 1] =
          .ok (base, m2) ∧
        some base ∈ ([some 2, some 1] : List (Option ℕ)) ∧
        (∀ e ∈ m2.component_map, some e.2 ∈ ([some 2, some 1] : List (Option ℕ)) → e.2 = base) ∧
        m2.component_map =
          [((0, 0), 1), ((1, 0), 2), ((2, 0), 7)].map
            (fun e => (e.1, canonValue [some 2, some 1] base e.2)) :=
  ⟨by decide, by decide,
    mergeComponents_canonical [some 2, some 1] ⟨3, [((0, 0), 1), ((1, 0), 2), ((2, 0), 7)]⟩
      (by decide) (by decide)⟩

/-- C4 (amended): for every in-bounds coordinate, `get_prior_neighbors`
returns exactly the in-bounds subset of the 8-connectivity causal set
`{(x-1,y-1), (x,y-1), (x+1,y-1), (x-1,y)}`.  Connectivity is not a
configuration choice: the source implements only the 8-way rule (the
4-vs-8 option is a `todo` comment). -/
theorem getPriorNeighbors_causal8 (p : ℕ × ℕ) (w h : ℕ)
    (hw : p.1 < w) (hh : p.2 < h) (q : ℕ × ℕ) :
    q ∈ getPriorNeighbors p (w, h) ↔ specCausal8 p w h q := by
  obtain ⟨x, y⟩ := p
  obtain ⟨qx, qy⟩ := q
  simp only [getPriorNeighbors, specCausal8] at *
  by_cases hx : 0 < x <;> by_cases hy : 0 < y <;> by_cases hxe : x < w - 1 <;>
    simp [hx, hy, hxe, Prod.ext_iff] <;> omega

/-- Witness for C4 at the center of a 3×3 grid and its up-left neighbor. -/
theorem getPriorNeighbors_causal8_witness :
    (1 : ℕ) < 3 ∧
      ((0, 0) ∈ getPriorNeighbors (1, 1) (3, 3) ↔ specCausal8 (1, 1) 3 3 (0, 0)) :=
  ⟨by decide, getPriorNeighbors_causal8 (1, 1) 3 3 (by decide) (by decide) (0, 0)⟩

/-- C4 counterexample: at (1,1) in a 3×3 grid the rule returns the
up-left diagonal neighbor (0,0), which is not in the 4-connectivity
causal set — the rule never behaves as the claimed 4-connectivity
alternative, so connectivity is not an available configuration choice. -/
theorem getPriorNeighbors_not_4way :
    (0, 0) ∈ getPriorNeighbors (1, 1) (3, 3) ∧ ¬ specCausal4 (1, 1) 3 3 (0, 0) := by
  decide

/-- C5 (amended): the color sequence is deterministic (a pure function of
the draw index) but not non-repeating: the hue state cycles with period
100000 exactly, so draws `k` and `k + 100000` yield identical RGB
triples, and with enough components two different components receive the
same color. -/
theorem colorSequence_period (k : ℕ) : colorDraw (k + 100000) = colorDraw k :=
  colorDraw_periodic k

/-- C5 counterexample: draws 0 and 100000 are distinct draw indices that
produce the same RGB triple. -/
theorem colorSequence_repeats :
    colorDraw 100000 = colorDraw 0 ∧ (100000 : ℕ) ≠ 0 :=
  ⟨by simpa using colorDraw_periodic 0, by decide⟩

/-- C7 (amended): with an argument count other than exactly two
positional arguments (`len(sys.argv) != 3`), `main` takes the `usage()`
path before the core runs — but `usage()` calls `sys.exit()` with no
argument, so the process terminates with exit status 0, not a non-zero
status. -/
theorem mainControl_usage (argv : List String) (h : argv.length ≠ 3) :
    mainControl argv = .usageExit 0 := by
  simp [mainControl, h]

/-- Witness for C7 on an invocation with no positional arguments. -/
theorem mainControl_usage_witness :
    (["components.py"] : List String).length ≠ 3 ∧
      mainControl ["components.py"] = .usageExit 0 :=
  ⟨by decide, mainControl_usage ["components.py"] (by decide)⟩

/-- C7 counterexample: on an invocation with no positional arguments the
usage path is taken with exit status 0, and 0 is the only exit status it
produces — contradicting the claimed non-zero exit status. -/
theorem mainControl_exit_zero :
    mainControl ["components.py"] = MainStep.usageExit 0 ∧
      ∀ c, mainControl ["components.py"] = MainStep.usageExit c → c = 0 := by
  refine ⟨by decide, ?_⟩
  intro c hc
  have h0 : mainControl ["components.py"] = MainStep.usageExit 0 := by decide
  rw [h0] at hc
  injection hc with h
  exact h.symm

/-- C9: `merge_components` fails on the `assert None not in cset`
assertion whenever the background sentinel is in its input, and this
failure branch is unreachable from `find_components`: the scan always
succeeds, because `filter(None, ...)` removes every `None` lookup result
before `merge_components` is called. -/
theorem mergeAssert_unreachable :
    (∀ (m : CMap) (comps : List (Option ℕ)), none ∈ comps →
        mergeComponents m comps = .error .assertionFailed) ∧
      ∀ im : Image1, ∃ m, findComponents im = Except.ok m := by
  constructor
  · intro m comps h
    unfold mergeComponents
    rw [if_pos (List.mem_dedup.mpr h)]
  · exact findComponents_ok

/-- Witness for C9: the assertion fires on a concrete sentinel-containing
input, and the scan of a concrete image succeeds. -/
theorem mergeAssert_unreachable_witness :
    mergeComponents CMap.init [none, some 1] = .error .assertionFailed ∧
      ∃ m, findComponents imgPair = Except.ok m :=
  ⟨mergeAssert_unreachable.1 CMap.init [none, some 1] (by decide),
    mergeAssert_unreachable.2 imgPair⟩

/-- C10: `merge_components` on an empty iterable passes the sentinel
assertion (vacuously) and then fails selecting `clist[0]` — an
IndexError, not an invariant violation; and `find_components` never
triggers it, since merging is guarded by a non-emptiness test on the
candidate list. -/
theorem mergeEmpty_indexError :
    (∀ m : CMap, mergeComponents m [] = .error .indexError) ∧
      ∀ im : Image1, findComponents im ≠ .error .indexError := by
  constructor
  · intro m; rfl
  · intro im h
    obtain ⟨m, hm⟩ := findComponents_ok im
    rw [hm] at h
    simp at h

/-- Witness for C10: the IndexError on a concrete empty call, and a
concrete scan that does not produce it. -/
theorem mergeEmpty_indexError_witness :
    mergeComponents CMap.init [] = .error .indexError ∧
      findComponents imgPair ≠ .error .indexError :=
  ⟨mergeEmpty_indexError.1 CMap.init, mergeEmpty_indexError.2 imgPair⟩

/-! ## Association list lemmas -/

section ALookup

variable {α β : Type} [DecidableEq α]

lemma alookup_eq_none_iff (l : List (α × β)) (k : α) :
    alookup l k = none ↔ k ∉ l.map Prod.fst := by
  induction l with
  | nil => simp [alookup]
  | cons e l ih =>
    simp only [alookup, List.map_cons, List.mem_cons]
    by_cases h : e.1 = k
    · simp [h]
    · simp only [if_neg h, ih]
      constructor
      · intro hk hm
        rcases hm with rfl | hm
        · exact h rfl
        · exact hk hm
      · intro hk hm
        exact hk (Or.inr hm)

lemma alookup_isSome_iff (l : List (α × β)) (k : α) :
    (alookup l k).isSome ↔ k ∈ l.map Prod.fst := by
  rw [← Option.ne_none_iff_isSome, Ne, alookup_eq_none_iff, not_not]

lemma alookup_append_of_some (l1 l2 : List (α × β)) (k : α) (v : β)
    (h : alookup l1 k = some v) : alookup (l1 ++ l2) k = some v := by
  induction l1 with
  | nil => simp [alookup] at h
  | cons e l ih =>
    by_cases he : e.1 = k <;> simp_all [alookup, he]

lemma alookup_append_of_none (l1 l2 : List (α × β)) (k : α)
    (h : alookup l1 k = none) : alookup (l1 ++ l2) k = alookup l2 k := by
  induction l1 with
  | nil => rfl
  | cons e l ih =>
    by_cases he : e.1 = k <;> simp_all [alookup, he]

lemma alookup_map_value {γ : Type} (l : List (α × β)) (f : β → γ) (k : α) :
    alookup (l.map (fun e => (e.1, f e.2))) k = (alookup l k).map f := by
  induction l with
  | nil => rfl
  | cons e l ih =>
    by_cases he : e.1 = k <;> simp [alookup, he, ih]

lemma alookup_mem (l : List (α × β)) (k : α) (v : β)
    (h : alookup l k = some v) : (k, v) ∈ l := by
  induction l with
  | nil => simp [alookup] at h
  | cons e l ih =>
    by_cases he : e.1 = k
    · simp only [alookup, if_pos he] at h
      have hv : e.2 = v := Option.some.inj h
      rw [← he, ← hv]
      exact List.mem_cons_self _ _
    · simp only [alookup, if_neg he] at h
      exact List.mem_cons_of_mem _ (ih h)

lemma alookup_of_mem_nodup (l : List (α × β)) (k : α) (v : β)
    (hmem : (k, v) ∈ l) (hnd : (l.map Prod.fst).Nodup) : alookup l k = some v := by
  induction l with
  | nil => simp at hmem
  | cons e l ih =>
    rw [List.map_cons, List.nodup_cons] at hnd
    rcases List.mem_cons.mp hmem with h | h
    · simp [alookup, ← h]
    · have hk : e.1 ≠ k := by
        intro he
        exact hnd.1 (he ▸ (List.mem_map.mpr ⟨(k, v), h, rfl⟩))
      simp only [alookup, if_neg hk]
      exact ih h hnd.2

lemma alookup_append_none_inv (l1 l2 : List (α × β)) (k : α)
    (h : alookup (l1 ++ l2) k = none) : alookup l1 k = none := by
  cases h1 : alookup l1 k with
  | none => rfl
  | some v =>
    rw [alookup_append_of_some _ l2 _ _ h1] at h
    cases h

lemma alookup_singleton_self (k : α) (v : β) : alookup [(k, v)] k = some v := by
  show (if k = k then some v else alookup [] k) = some v
  rw [if_pos rfl]

lemma aset_of_not_mem (l : List (α × β)) (k : α) (v : β)
    (h : k ∉ l.map Prod.fst) : aset l k v = l ++ [(k, v)] := by
  unfold aset
  have hany : (l.any (fun e => e.1 = k)) = false := by
    simp only [List.any_eq_false, decide_eq_true_eq]
    intro e he hek
    exact h (List.mem_map.mpr ⟨e, he, hek⟩)
  rw [hany]
  simp

end ALookup

/-! ## Raster enumeration lemmas -/

lemma mem_iterpixels (w h : ℕ) (p : ℕ × ℕ) :
    p ∈ iterpixels w h ↔ p.1 < w ∧ p.2 < h := by
  obtain ⟨x, y⟩ := p
  simp only [iterpixels, List.mem_flatMap, List.mem_map, List.mem_range, Prod.mk.injEq]
  constructor
  · rintro ⟨b, hb, a, ha, rfl, rfl⟩
    exact ⟨ha, hb⟩
  · rintro ⟨hx, hy⟩
    exact ⟨y, hy, x, hx, rfl, rfl⟩

lemma iterpixels_succ (w h : ℕ) :
    iterpixels w (h + 1) = iterpixels w h ++ (List.range w).map (fun x => (x, h)) := by
  unfold iterpixels
  rw [List.range_succ, List.flatMap_append]
  simp

lemma iterpixels_length (w h : ℕ) : (iterpixels w h).length = w * h := by
  induction h with
  | zero => rfl
  | succ h ih =>
    rw [iterpixels_succ, List.length_append, ih, List.length_map, List.length_range]
    ring

lemma iterpixels_getElem (w h : ℕ) (p : ℕ × ℕ) (hw : p.1 < w) (hh : p.2 < h) :
    (iterpixels w h)[p.2 * w + p.1]? = some p := by
  induction h with
  | zero => exact absurd hh (Nat.not_lt_zero _)
  | succ h ih =>
    rw [iterpixels_succ, List.getElem?_append, iterpixels_length]
    by_cases hlt : p.2 < h
    · have hidx : p.2 * w + p.1 < w * h := by
        calc p.2 * w + p.1 < p.2 * w + w := by omega
          _ = (p.2 + 1) * w := by ring
          _ ≤ h * w := Nat.mul_le_mul_right w (by omega)
          _ = w * h := Nat.mul_comm _ _
      rw [if_pos hidx, ← iterpixels_length w h] at *
      exact ih hlt
    · have hp2 : p.2 = h := by omega
      have hnidx : ¬ p.2 * w + p.1 < w * h := by
        rw [hp2, Nat.mul_comm]
        omega
      rw [if_neg hnidx, hp2]
      have harith : h * w + p.1 - w * h = p.1 := by
        rw [Nat.mul_comm]
        omega
      rw [harith, List.getElem?_map, List.getElem?_range hw]
      show some (p.1, h) = some p
      rw [← hp2]

lemma pairwise_iterpixels (w h : ℕ) : (iterpixels w h).Pairwise rasterLt := by
  induction h with
  | zero => simp [iterpixels]
  | succ h ih =>
    rw [iterpixels_succ, List.pairwise_append]
    refine ⟨ih, ?_, ?_⟩
    · rw [List.pairwise_map]
      refine List.Pairwise.imp ?_ (List.pairwise_lt_range w)
      intro a b hab
      exact Or.inr ⟨rfl, hab⟩
    · intro a ha b hb
      have ha2 : a.2 < h := ((mem_iterpixels w h a).mp ha).2
      obtain ⟨x, _, rfl⟩ := List.mem_map.mp hb
      exact Or.inl ha2

lemma rasterLt_irrefl (p : ℕ × ℕ) : ¬ rasterLt p p := by
  unfold rasterLt; omega

lemma rasterLt_asymm (p q : ℕ × ℕ) : rasterLt p q → ¬ rasterLt q p := by
  unfold rasterLt; omega

lemma iterpixels_split (w h : ℕ) (l1 l2 : List (ℕ × ℕ)) (p : ℕ × ℕ)
    (hsp : iterpixels w h = l1 ++ p :: l2) :
    (p.1 < w ∧ p.2 < h) ∧ p ∉ l1 ∧
      ∀ q, q ∈ l1 ↔ (q.1 < w ∧ q.2 < h ∧ rasterLt q p) := by
  have hpw : (iterpixels w h).Pairwise rasterLt := pairwise_iterpixels w h
  rw [hsp, List.pairwise_append, List.pairwise_cons] at hpw
  obtain ⟨h1, ⟨hpl2, h2⟩, hcross⟩ := hpw
  have hpmem : p ∈ iterpixels w h := by
    rw [hsp]
    exact List.mem_append_right _ (List.mem_cons_self _ _)
  have hpb := (mem_iterpixels w h p).mp hpmem
  refine ⟨hpb, ?_, ?_⟩
  · intro hmem
    exact rasterLt_irrefl p (hcross p hmem p (List.mem_cons_self _ _))
  · intro q
    constructor
    · intro hq
      have hqb := (mem_iterpixels w h q).mp (by
        rw [hsp]; exact List.mem_append_left _ hq)
      exact ⟨hqb.1, hqb.2, hcross q hq p (List.mem_cons_self _ _)⟩
    · rintro ⟨hqw, hqh, hlt⟩
      have hqmem : q ∈ l1 ++ p :: l2 := by
        rw [← hsp]
        exact (mem_iterpixels w h q).mpr ⟨hqw, hqh⟩
      rcases List.mem_append.mp hqmem with h | h
      · exact h
      · rcases List.mem_cons.mp h with rfl | h
        · exact absurd hlt (rasterLt_irrefl q)
        · exact absurd hlt (rasterLt_asymm p q (hpl2 q h))

/-- `get_prior_neighbors` of an in-bounds pixel enumerates exactly the
in-bounds 8-neighbors that come earlier in raster order. -/
lemma priorNeighbors_char (w h : ℕ) (p : ℕ × ℕ) (hw : p.1 < w) (hh : p.2 < h)
    (q : ℕ × ℕ) :
    q ∈ getPriorNeighbors p (w, h) ↔ (q.1 < w ∧ q.2 < h ∧ adj8 q p ∧ rasterLt q p) := by
  obtain ⟨x, y⟩ := p
  obtain ⟨qx, qy⟩ := q
  simp only [getPriorNeighbors, adj8, rasterLt, Ne, Prod.mk.injEq, not_and] at *
  by_cases hx : 0 < x <;> by_cases hy : 0 < y <;> by_cases hxe : x < w - 1 <;>
    simp [hx, hy, hxe, Prod.ext_iff] <;> omega

/-! ## Connectivity lemmas -/

lemma adj8_symm (a b : ℕ × ℕ) : adj8 a b → adj8 b a := by
  unfold adj8
  rintro ⟨h1, h2, h3⟩
  exact ⟨fun h => h1 h.symm, by tauto, by tauto⟩

lemma conn_symm (F : ℕ × ℕ → Prop) (a b : ℕ × ℕ) (h : conn F a b) : conn F b a := by
  refine Relation.ReflTransGen.symmetric ?_ h
  rintro x y ⟨hx, hy, hadj⟩
  exact ⟨hy, hx, adj8_symm x y hadj⟩

lemma conn_mono (F G : ℕ × ℕ → Prop) (hFG : ∀ q, F q → G q) (a b : ℕ × ℕ)
    (h : conn F a b) : conn G a b := by
  refine Relation.ReflTransGen.mono ?_ h
  rintro x y ⟨hx, hy, hadj⟩
  exact ⟨hFG x hx, hFG y hy, hadj⟩

lemma pfg_mono (im : Image1) (done : List (ℕ × ℕ)) (p : ℕ × ℕ) (q : ℕ × ℕ) :
    pfg im done q → pfg im (done ++ [p]) q := by
  rintro ⟨hq, hpix⟩
  exact ⟨List.mem_append_left _ hq, hpix⟩

lemma pfg_append_iff (im : Image1) (done : List (ℕ × ℕ)) (p : ℕ × ℕ) (q : ℕ × ℕ) :
    pfg im (done ++ [p]) q ↔ pfg im done q ∨ (q = p ∧ im.pixel p = true) := by
  unfold pfg
  simp only [List.mem_append, List.mem_singleton]
  constructor
  · rintro ⟨h | h, hpix⟩
    · exact Or.inl ⟨h, hpix⟩
    · exact Or.inr ⟨h, h ▸ hpix⟩
  · rintro (⟨h, hpix⟩ | ⟨rfl, hpix⟩)
    · exact ⟨Or.inl h, hpix⟩
    · exact ⟨Or.inr rfl, hpix⟩

lemma lookup_pos (im : Image1) (done : List (ℕ × ℕ)) (m : CMap)
    (inv : ScanInv im done m) (q : ℕ × ℕ) (v : ℕ)
    (h : getComponent m q = some v) : 0 < v :=
  inv.valPos (q, v) (alookup_mem _ _ _ h)

lemma lookup_lt (im : Image1) (done : List (ℕ × ℕ)) (m : CMap)
    (inv : ScanInv im done m) (q : ℕ × ℕ) (v : ℕ)
    (h : getComponent m q = some v) : v < m.next_key :=
  inv.valLt (q, v) (alookup_mem _ _ _ h)

/-! ## Invariant preservation -/

/-- Processing a background pixel changes nothing. -/
lemma scanInv_bg (im : Image1) (done : List (ℕ × ℕ)) (p : ℕ × ℕ) (m : CMap)
    (hbg : im.pixel p = false) (inv : ScanInv im done m) :
    ScanInv im (done ++ [p]) m := by
  have hpfg : pfg im (done ++ [p]) = pfg im done := by
    funext q
    refine propext ?_
    rw [pfg_append_iff]
    constructor
    · rintro (h | ⟨rfl, hpix⟩)
      · exact h
      · rw [hbg] at hpix; cases hpix
    · exact Or.inl
  obtain ⟨nk, dom, knd, vp, vl, snd, cmp⟩ := inv
  exact ⟨nk, by rw [hpfg]; exact dom, knd, vp, vl,
    by rw [hpfg]; exact snd, by rw [hpfg]; exact cmp⟩

/-- Processing a foreground pixel with no processed foreground neighbor:
a fresh label is appended. -/
lemma scanInv_make (im : Image1) (done : List (ℕ × ℕ)) (p : ℕ × ℕ) (m : CMap)
    (hfg : im.pixel p = true) (hpnd : p ∉ done)
    (hNoNbr : ∀ q, pfg im done q → ¬ adj8 q p) (inv : ScanInv im done m) :
    ScanInv im (done ++ [p])
      ⟨m.next_key + 1, m.component_map ++ [(p, m.next_key)]⟩ := by
  have hpnone : getComponent m p = none := by
    refine Option.not_isSome_iff_eq_none.mp ?_
    intro hs
    exact hpnd ((inv.dom p).mp hs).1
  have hlook : ∀ q,
      getComponent ⟨m.next_key + 1, m.component_map ++ [(p, m.next_key)]⟩ q =
        if q = p then some m.next_key else getComponent m q := by
    intro q
    show alookup (m.component_map ++ [(p, m.next_key)]) q = _
    by_cases hq : q = p
    · subst hq
      rw [alookup_append_of_none _ _ _ hpnone, if_pos rfl]
      simp [alookup]
    · rw [if_neg hq]
      cases h2 : getComponent m q with
      | none =>
        rw [alookup_append_of_none _ _ _ h2]
        show (if p = q then some m.next_key else alookup [] q) = none
        rw [if_neg (fun h : p = q => hq h.symm)]
        rfl
      | some v => exact alookup_append_of_some _ _ _ _ h2
  refine ⟨?_, ?_, ?_, ?_, ?_, ?_, ?_⟩
  · exact Nat.le_succ_of_le inv.nkPos
  · intro q
    rw [hlook q]
    by_cases hq : q = p
    · rw [if_pos hq]
      exact iff_of_true (by simp) ((pfg_append_iff im done p q).mpr (Or.inr ⟨hq, hfg⟩))
    · rw [if_neg hq, inv.dom q, pfg_append_iff]
      constructor
      · exact Or.inl
      · rintro (h | ⟨rfl, _⟩)
        · exact h
        · exact absurd rfl hq
  · rw [List.map_append]
    have hkeys : p ∉ m.component_map.map Prod.fst := (alookup_eq_none_iff _ _).mp hpnone
    simp [List.Nodup.append, List.nodup_append, inv.keysNodup, hkeys]
  · intro e he
    rcases List.mem_append.mp he with h | h
    · exact inv.valPos e h
    · rw [List.mem_singleton.mp h]
      exact inv.nkPos
  · intro e he
    rcases List.mem_append.mp he with h | h
    · exact Nat.lt_succ_of_lt (inv.valLt e h)
    · rw [List.mem_singleton.mp h]
      exact Nat.lt_succ_self _
  · intro a b v ha hb
    rw [hlook a] at ha
    rw [hlook b] at hb
    by_cases haq : a = p <;> by_cases hbq : b = p
    · rw [haq, hbq]
      exact Relation.ReflTransGen.refl
    · rw [if_pos haq] at ha
      rw [if_neg hbq] at hb
      have hv : v = m.next_key := (Option.some.inj ha).symm
      have hlt := lookup_lt im done m inv b v hb
      rw [hv] at hlt
      exact absurd hlt (lt_irrefl _)
    · rw [if_neg haq] at ha
      rw [if_pos hbq] at hb
      have hv : v = m.next_key := (Option.some.inj hb).symm
      have hlt := lookup_lt im done m inv a v ha
      rw [hv] at hlt
      exact absurd hlt (lt_irrefl _)
    · rw [if_neg haq] at ha
      rw [if_neg hbq] at hb
      exact conn_mono _ _ (pfg_mono im done p) a b (inv.sound a b v ha hb)
  · intro a b hpa hpb hadj
    rcases (pfg_append_iff im done p a).mp hpa with ha | ⟨hap, _⟩
    · rcases (pfg_append_iff im done p b).mp hpb with hb | ⟨hbp, _⟩
      · have hanp : a ≠ p := fun h => hpnd (h ▸ ha.1)
        have hbnp : b ≠ p := fun h => hpnd (h ▸ hb.1)
        rw [hlook a, hlook b, if_neg hanp, if_neg hbnp]
        exact inv.complete a b ha hb hadj
      · rw [hbp] at hadj
        exact absurd hadj (hNoNbr a ha)
    · rcases (pfg_append_iff im done p b).mp hpb with hb | ⟨hbp, _⟩
      · rw [hap] at hadj
        exact absurd (adj8_symm _ _ hadj) (hNoNbr b hb)
      · exact absurd (hap.trans hbp.symm) hadj.1

/-- Processing a foreground pixel with at least one processed foreground
neighbor: all candidate labels collapse to `base` and the pixel is bound
to `base`.  `A` is the filtered candidate list (`active`), characterized
by `hA`. -/
lemma scanInv_merge (im : Image1) (done : List (ℕ × ℕ)) (p : ℕ × ℕ) (m : CMap)
    (A : List (Option ℕ)) (base : ℕ)
    (hfg : im.pixel p = true) (hpnd : p ∉ done)
    (hA : ∀ v, some v ∈ A ↔ ∃ q, q ∈ done ∧ adj8 q p ∧ getComponent m q = some v)
    (hbase : some base ∈ A) (inv : ScanInv im done m) :
    ScanInv im (done ++ [p])
      ⟨m.next_key,
        m.component_map.map (fun e => (e.1, canonValue A base e.2)) ++ [(p, base)]⟩ := by
  obtain ⟨nb, hnbd, hnbadj, hnblook⟩ := (hA base).mp hbase
  have hbasepos : 0 < base := lookup_pos im done m inv nb base hnblook
  have hbaselt : base < m.next_key := lookup_lt im done m inv nb base hnblook
  have hpnone : getComponent m p = none := by
    refine Option.not_isSome_iff_eq_none.mp ?_
    intro hs
    exact hpnd ((inv.dom p).mp hs).1
  have hmfst : (m.component_map.map (fun e => (e.1, canonValue A base e.2))).map Prod.fst =
      m.component_map.map Prod.fst := by
    rw [List.map_map]
    rfl
  have hkeys : p ∉ m.component_map.map Prod.fst := (alookup_eq_none_iff _ _).mp hpnone
  have hmapped : ∀ q, alookup (m.component_map.map (fun e => (e.1, canonValue A base e.2))) q =
      (getComponent m q).map (canonValue A base) :=
    fun q => alookup_map_value m.component_map (canonValue A base) q
  have hlook2 : ∀ q,
      getComponent ⟨m.next_key,
          m.component_map.map (fun e => (e.1, canonValue A base e.2)) ++ [(p, base)]⟩ q =
        if q = p then some base else (getComponent m q).map (canonValue A base) := by
    intro q
    show alookup _ q = _
    by_cases hq : q = p
    · rw [if_pos hq, hq]
      rw [alookup_append_of_none _ _ _ (by rw [hmapped p, hpnone]; rfl)]
      show (if p = p then some base else alookup [] p) = some base
      rw [if_pos rfl]
    · rw [if_neg hq]
      cases h2 : getComponent m q with
      | none =>
        rw [alookup_append_of_none _ _ _ (by rw [hmapped q, h2]; rfl)]
        show (if p = q then some base else alookup [] q) = _
        rw [if_neg (fun h : p = q => hq h.symm)]
        rfl
      | some v =>
        rw [alookup_append_of_some _ _ _ _ (by rw [hmapped q, h2]; rfl)]
        rfl
  have hfeqbase : ∀ v, canonValue A base v = base ↔ (some v ∈ A ∨ v = base) := by
    intro v
    unfold canonValue
    by_cases h : some v ∈ A <;> simp [h]
  have hconnp : ∀ x vx, getComponent m x = some vx → some vx ∈ A →
      conn (pfg im (done ++ [p])) x p := by
    intro x vx hx hvx
    obtain ⟨u, hud, huadj, hulook⟩ := (hA vx).mp hvx
    have hxu : conn (pfg im done) x u := inv.sound x u vx hx hulook
    refine Relation.ReflTransGen.tail
      (conn_mono _ _ (pfg_mono im done p) x u hxu) ?_
    refine ⟨?_, ?_, huadj⟩
    · exact pfg_mono im done p u ((inv.dom u).mp (by rw [hulook]; rfl))
    · exact (pfg_append_iff im done p p).mpr (Or.inr ⟨rfl, hfg⟩)
  have hmemA : ∀ v, canonValue A base v = base → some v ∈ A := by
    intro v hv
    rcases (hfeqbase v).mp hv with h | h
    · exact h
    · exact h ▸ hbase
  refine ⟨?_, ?_, ?_, ?_, ?_, ?_, ?_⟩
  · exact inv.nkPos
  · intro q
    by_cases hq : q = p
    · rw [hlook2 q, if_pos hq]
      exact iff_of_true (by simp) ((pfg_append_iff im done p q).mpr (Or.inr ⟨hq, hfg⟩))
    · rw [hlook2 q, if_neg hq, pfg_append_iff]
      have hd := inv.dom q
      cases h2 : getComponent m q with
      | none =>
        rw [h2] at hd
        simp only [Option.map_none', Option.isSome_none, Bool.false_eq_true,
          false_iff] at hd ⊢
        rintro (h | ⟨hqp, _⟩)
        · exact hd h
        · exact hq hqp
      | some v =>
        rw [h2] at hd
        simp only [Option.map_some', Option.isSome_some, true_iff] at hd ⊢
        exact Or.inl hd
  · rw [List.map_append, hmfst]
    simp [List.nodup_append, inv.keysNodup, hkeys]
  · intro e he
    rcases List.mem_append.mp he with h | h
    · obtain ⟨e0, he0, rfl⟩ := List.mem_map.mp h
      show 0 < canonValue A base e0.2
      unfold canonValue
      by_cases hc : some e0.2 ∈ A
      · rw [if_pos hc]; exact hbasepos
      · rw [if_neg hc]; exact inv.valPos e0 he0
    · rw [List.mem_singleton.mp h]
      exact hbasepos
  · intro e he
    rcases List.mem_append.mp he with h | h
    · obtain ⟨e0, he0, rfl⟩ := List.mem_map.mp h
      show canonValue A base e0.2 < _
      unfold canonValue
      by_cases hc : some e0.2 ∈ A
      · rw [if_pos hc]; exact hbaselt
      · rw [if_neg hc]; exact inv.valLt e0 he0
    · rw [List.mem_singleton.mp h]
      exact hbaselt
  · intro a b v ha hb
    rw [hlook2 a] at ha
    rw [hlook2 b] at hb
    by_cases haq : a = p <;> by_cases hbq : b = p
    · rw [haq, hbq]
      exact Relation.ReflTransGen.refl
    · rw [if_pos haq] at ha
      rw [if_neg hbq] at hb
      have hvb : v = base := (Option.some.inj ha).symm
      obtain ⟨vb, hvb2, hfb⟩ := Option.map_eq_some'.mp hb
      have hvbA : some vb ∈ A := hmemA vb (by rw [hfb, hvb])
      rw [haq]
      exact conn_symm _ _ _ (hconnp b vb hvb2 hvbA)
    · rw [if_neg haq] at ha
      rw [if_pos hbq] at hb
      have hvb : v = base := (Option.some.inj hb).symm
      obtain ⟨va, hva2, hfa⟩ := Option.map_eq_some'.mp ha
      have hvaA : some va ∈ A := hmemA va (by rw [hfa, hvb])
      rw [hbq]
      exact hconnp a va hva2 hvaA
    · rw [if_neg haq] at ha
      rw [if_neg hbq] at hb
      obtain ⟨va, hva2, hfa⟩ := Option.map_eq_some'.mp ha
      obtain ⟨vb, hvb2, hfb⟩ := Option.map_eq_some'.mp hb
      by_cases hvaA : some va ∈ A <;> by_cases hvbA : some vb ∈ A
      · exact Relation.ReflTransGen.trans (hconnp a va hva2 hvaA)
          (conn_symm _ _ _ (hconnp b vb hvb2 hvbA))
      · have hva_base : canonValue A base va = base := (hfeqbase va).mpr (Or.inl hvaA)
        have : canonValue A base vb = base := by rw [hfb, ← hfa, hva_base]
        exact absurd (hmemA vb this) hvbA
      · have hvb_base : canonValue A base vb = base := (hfeqbase vb).mpr (Or.inl hvbA)
        have : canonValue A base va = base := by rw [hfa, ← hfb, hvb_base]
        exact absurd (hmemA va this) hvaA
      · have hfa2 : canonValue A base va = va := by
          unfold canonValue; rw [if_neg hvaA]
        have hfb2 : canonValue A base vb = vb := by
          unfold canonValue; rw [if_neg hvbA]
        rw [hfa2] at hfa
        rw [hfb2] at hfb
        rw [hfa, ← hfb] at hva2
        exact conn_mono _ _ (pfg_mono im done p) a b (inv.sound a b vb hva2 hvb2)
  · intro a b hpa hpb hadj
    rcases (pfg_append_iff im done p a).mp hpa with ha | ⟨hap, _⟩
    · rcases (pfg_append_iff im done p b).mp hpb with hb | ⟨hbp, _⟩
      · have hanp : a ≠ p := fun h => hpnd (h ▸ ha.1)
        have hbnp : b ≠ p := fun h => hpnd (h ▸ hb.1)
        rw [hlook2 a, hlook2 b, if_neg hanp, if_neg hbnp]
        exact congrArg (Option.map (canonValue A base)) (inv.complete a b ha hb hadj)
      · have hanp : a ≠ p := fun h => hpnd (h ▸ ha.1)
        obtain ⟨va, hva⟩ := Option.isSome_iff_exists.mp ((inv.dom a).mpr ha)
        have hvaA : some va ∈ A := (hA va).mpr ⟨a, ha.1, hbp ▸ hadj, hva⟩
        rw [hlook2 a, hlook2 b, if_neg hanp, if_pos hbp, hva]
        show some (canonValue A base va) = some base
        rw [(hfeqbase va).mpr (Or.inl hvaA)]
    · rcases (pfg_append_iff im done p b).mp hpb with hb | ⟨hbp, _⟩
      · have hbnp : b ≠ p := fun h => hpnd (h ▸ hb.1)
        obtain ⟨vb, hvb⟩ := Option.isSome_iff_exists.mp ((inv.dom b).mpr hb)
        have hvbA : some vb ∈ A :=
          (hA vb).mpr ⟨b, hb.1, hap ▸ adj8_symm a b hadj, hvb⟩
        rw [hlook2 a, hlook2 b, if_pos hap, if_neg hbnp, hvb]
        show some base = some (canonValue A base vb)
        rw [(hfeqbase vb).mpr (Or.inl hvbA)]
      · exact absurd (hap.trans hbp.symm) hadj.1

/-- One step of the scan preserves the invariant and succeeds. -/
lemma scanInv_step (im : Image1) (done rest : List (ℕ × ℕ)) (p : ℕ × ℕ) (m : CMap)
    (hsp : iterpixels im.width im.height = done ++ p :: rest)
    (inv : ScanInv im done m) :
    ∃ m2, stepPixel im m p = .ok m2 ∧ ScanInv im (done ++ [p]) m2 := by
  obtain ⟨⟨hpw, hph⟩, hpnd, hdone⟩ := iterpixels_split _ _ done rest p hsp
  by_cases hbg : im.pixel p = false
  · exact ⟨m, by unfold stepPixel; rw [if_pos hbg], scanInv_bg im done p m hbg inv⟩
  · have hfg : im.pixel p = true := by
      revert hbg
      cases im.pixel p <;> simp
    have hpnone : getComponent m p = none := by
      refine Option.not_isSome_iff_eq_none.mp ?_
      intro hs
      exact hpnd ((inv.dom p).mp hs).1
    have hkeys : p ∉ m.component_map.map Prod.fst := (alookup_eq_none_iff _ _).mp hpnone
    have hN : ∀ q, q ∈ getPriorNeighbors p (im.width, im.height) ↔
        (q ∈ done ∧ adj8 q p) := by
      intro q
      rw [priorNeighbors_char im.width im.height p hpw hph q]
      constructor
      · rintro ⟨h1, h2, h3, h4⟩
        exact ⟨(hdone q).mpr ⟨h1, h2, h4⟩, h3⟩
      · rintro ⟨hq, hadj⟩
        obtain ⟨h1, h2, h4⟩ := (hdone q).mp hq
        exact ⟨h1, h2, hadj, h4⟩
    have hA : ∀ v, some v ∈
          (getComponents m (getPriorNeighbors p (im.width, im.height))).filter pyTruthy ↔
        ∃ q, q ∈ done ∧ adj8 q p ∧ getComponent m q = some v := by
      intro v
      rw [List.mem_filter]
      simp only [getComponents, List.mem_map]
      constructor
      · rintro ⟨⟨q, hq, hlookup⟩, _⟩
        obtain ⟨hqd, hadj⟩ := (hN q).mp hq
        exact ⟨q, hqd, hadj, hlookup⟩
      · rintro ⟨q, hqd, hadj, hlookup⟩
        refine ⟨⟨q, (hN q).mpr ⟨hqd, hadj⟩, hlookup⟩, ?_⟩
        have hpos := lookup_pos im done m inv q v hlookup
        simp only [pyTruthy, Ne, decide_eq_true_eq]
        omega
    have hAnone : none ∉
        (getComponents m (getPriorNeighbors p (im.width, im.height))).filter pyTruthy := by
      intro h
      have := (List.mem_filter.mp h).2
      simp [pyTruthy] at this
    by_cases hac :
        (getComponents m (getPriorNeighbors p (im.width, im.height))).filter pyTruthy = []
    · have hNoNbr : ∀ q, pfg im done q → ¬ adj8 q p := by
        rintro q ⟨hqd, hqpix⟩ hadj
        obtain ⟨v, hv⟩ := Option.isSome_iff_exists.mp ((inv.dom q).mpr ⟨hqd, hqpix⟩)
        have hmem := (hA v).mpr ⟨q, hqd, hadj, hv⟩
        rw [hac] at hmem
        exact absurd hmem (List.not_mem_nil _)
      refine ⟨_, ?_, scanInv_make im done p m hfg hpnd hNoNbr inv⟩
      unfold stepPixel
      rw [if_neg hbg, if_neg (not_not_intro hac)]
      unfold makeComponent
      rw [aset_of_not_mem _ _ _ hkeys]
    · obtain ⟨base, hbase, heq⟩ := mergeComponents_ok m _ hac hAnone
      refine ⟨_, ?_, scanInv_merge im done p m _ base hfg hpnd hA hbase inv⟩
      have hkeys2 : p ∉ (m.component_map.map
          (fun e => (e.1, canonValue ((getComponents m
            (getPriorNeighbors p (im.width, im.height))).filter pyTruthy) base e.2))).map
          Prod.fst := by
        rw [List.map_map]
        exact hkeys
      unfold stepPixel
      rw [if_neg hbg, if_pos hac, heq]
      show Except.ok (addPoint _ p base) = _
      unfold addPoint
      rw [aset_of_not_mem _ _ _ hkeys2]

/-- The scan preserves the invariant along any suffix of the raster
enumeration. -/
lemma scanInv_fold (im : Image1) (rest : List (ℕ × ℕ)) :
    ∀ (done : List (ℕ × ℕ)) (m : CMap),
      iterpixels im.width im.height = done ++ rest → ScanInv im done m →
      ∃ m2, rest.foldlM (stepPixel im) m = .ok m2 ∧ ScanInv im (done ++ rest) m2 := by
  induction rest with
  | nil =>
    intro done m hsp inv
    exact ⟨m, rfl, by simpa using inv⟩
  | cons p rest ih =>
    intro done m hsp inv
    obtain ⟨m1, hstep, inv1⟩ := scanInv_step im done rest p m hsp inv
    obtain ⟨m2, hfold, inv2⟩ := ih (done ++ [p]) m1 (by rw [hsp]; simp) inv1
    refine ⟨m2, ?_, ?_⟩
    · rw [List.foldlM_cons, hstep]
      exact hfold
    · have : done ++ [p] ++ rest = done ++ p :: rest := by simp
      rw [← this]
      exact inv2

/-- The empty map satisfies the invariant for the empty prefix. -/
lemma scanInv_init (im : Image1) : ScanInv im [] CMap.init := by
  refine ⟨le_refl 1, ?_, ?_, ?_, ?_, ?_, ?_⟩
  · intro q
    simp [CMap.init, getComponent, alookup, pfg, Option.isSome]
  · simp [CMap.init]
  · intro e he
    simp [CMap.init] at he
  · intro e he
    simp [CMap.init] at he
  · intro a b v ha _
    simp [CMap.init, getComponent, alookup] at ha
  · intro a b hpa _ _
    simp [pfg] at hpa

/-- `find_components` succeeds and its result satisfies the invariant
over the full grid. -/
lemma findComponents_inv (im : Image1) :
    ∃ m, findComponents im = .ok m ∧
      ScanInv im (iterpixels im.width im.height) m := by
  obtain ⟨m, hfold, inv⟩ :=
    scanInv_fold im (iterpixels im.width im.height) [] CMap.init rfl (scanInv_init im)
  exact ⟨m, hfold, by simpa using inv⟩

/-- At the end of the scan the processed foreground is the whole
foreground. -/
lemma pfg_iterpixels (im : Image1) :
    pfg im (iterpixels im.width im.height) = fgCell im := by
  funext q
  refine propext ?_
  unfold pfg fgCell
  rw [mem_iterpixels]
  tauto

/-- Connected foreground cells end up with equal labels. -/
lemma label_eq_of_conn (im : Image1) (m : CMap)
    (inv : ScanInv im (iterpixels im.width im.height) m)
    (a b : ℕ × ℕ) (h : conn (fgCell im) a b) :
    getComponent m a = getComponent m b := by
  rw [← pfg_iterpixels im] at h
  induction h with
  | refl => rfl
  | tail hxy hstep ih =>
    obtain ⟨hF1, hF2, hadj⟩ := hstep
    exact ih.trans (inv.complete _ _ hF1 hF2 hadj)

/-- Equal labels on foreground cells imply connectivity. -/
lemma conn_of_label_eq (im : Image1) (m : CMap)
    (inv : ScanInv im (iterpixels im.width im.height) m)
    (a b : ℕ × ℕ) (ha : fgCell im a)
    (h : getComponent m a = getComponent m b) : conn (fgCell im) a b := by
  have ha2 : pfg im (iterpixels im.width im.height) a := by
    rw [pfg_iterpixels im]; exact ha
  obtain ⟨v, hv⟩ := Option.isSome_iff_exists.mp ((inv.dom a).mpr ha2)
  have hvb : getComponent m b = some v := by rw [← h]; exact hv
  have := inv.sound a b v hv hvb
  rw [pfg_iterpixels im] at this
  exact this

/-- A label's fiber is exactly the connected component of any cell
carrying it. -/
lemma fiber_eq_component (im : Image1) (m : CMap)
    (inv : ScanInv im (iterpixels im.width im.height) m)
    (k : ℕ × ℕ) (v : ℕ) (hk : getComponent m k = some v) :
    {q | getComponent m q = some v} = componentOf (fgCell im) k := by
  have hkF : fgCell im k := by
    rw [← pfg_iterpixels im]
    exact (inv.dom k).mp (by rw [hk]; rfl)
  ext q
  simp only [Set.mem_setOf_eq, componentOf]
  constructor
  · intro hq
    have := inv.sound k q v hk hq
    rw [pfg_iterpixels im] at this
    exact this
  · intro hq
    have := label_eq_of_conn im m inv k q hq
    rw [← this]
    exact hk

/-- Every stored value is the label of its key cell. -/
lemma value_has_cell (im : Image1) (m : CMap)
    (inv : ScanInv im (iterpixels im.width im.height) m) (v : ℕ)
    (hv : v ∈ (m.component_map.map Prod.snd).toFinset) :
    ∃ k, getComponent m k = some v := by
  rw [List.mem_toFinset] at hv
  obtain ⟨e, he, he2⟩ := List.mem_map.mp hv
  refine ⟨e.1, ?_⟩
  rw [← he2]
  exact alookup_of_mem_nodup _ _ _ he inv.keysNodup

/-- C1: for every input grid, `find_components` succeeds and the number
of distinct label values stored in the `ComponentMap` (`__len__`, which
has no background entries) equals the number of maximal connected
foreground regions under the implemented 8-connectivity. -/
theorem findComponents_count (im : Image1) :
    ∃ m, findComponents im = .ok m ∧ lenCM m = ncomponents im := by
  obtain ⟨m, hok, inv⟩ := findComponents_inv im
  refine ⟨m, hok, ?_⟩
  have hcard : lenCM m = ((m.component_map.map Prod.snd).toFinset).card := by
    rw [List.card_toFinset]
    rfl
  have himg : componentsOf im =
      (fun v => {q | getComponent m q = some v}) ''
        ((m.component_map.map Prod.snd).toFinset : Set ℕ) := by
    ext C
    constructor
    · rintro ⟨p0, hF, rfl⟩
      have hp0 : pfg im (iterpixels im.width im.height) p0 := by
        rw [pfg_iterpixels im]; exact hF
      obtain ⟨v, hv⟩ := Option.isSome_iff_exists.mp ((inv.dom p0).mpr hp0)
      refine ⟨v, ?_, ?_⟩
      · rw [Finset.mem_coe, List.mem_toFinset]
        exact List.mem_map.mpr ⟨(p0, v), alookup_mem _ _ _ hv, rfl⟩
      · exact fiber_eq_component im m inv p0 v hv
    · rintro ⟨v, hv, rfl⟩
      obtain ⟨k, hk⟩ := value_has_cell im m inv v (Finset.mem_coe.mp hv)
      have hkF : fgCell im k := by
        rw [← pfg_iterpixels im]
        exact (inv.dom k).mp (by rw [hk]; rfl)
      exact ⟨k, hkF, fiber_eq_component im m inv k v hk⟩
  have hinj : Set.InjOn (fun v => {q | getComponent m q = some v})
      ((m.component_map.map Prod.snd).toFinset : Set ℕ) := by
    intro v1 hv1 v2 hv2 heq
    obtain ⟨k1, hk1⟩ := value_has_cell im m inv v1 (Finset.mem_coe.mp hv1)
    have heq2 : {q | getComponent m q = some v1} = {q | getComponent m q = some v2} := heq
    have hk1mem : k1 ∈ {q | getComponent m q = some v1} := hk1
    rw [heq2] at hk1mem
    have hk2 : getComponent m k1 = some v2 := hk1mem
    exact Option.some.inj (by rw [← hk1, hk2])
  rw [hcard]
  unfold ncomponents
  rw [himg, Set.ncard_image_of_injOn hinj, Set.ncard_coe_Finset]

/-! ## Renderer lemmas -/

lemma renderStep_hit (m : CMap) (st : RenderState) (acc : List (ℤ × ℤ × ℤ))
    (p : ℕ × ℕ) (col : ℤ × ℤ × ℤ)
    (h : alookup st.table (getComponent m p) = some col) :
    renderStep m (st, acc) p = (st, acc ++ [col]) := by
  simp only [renderStep, h]

lemma renderStep_miss (m : CMap) (st : RenderState) (acc : List (ℤ × ℤ × ℤ))
    (p : ℕ × ℕ) (h : alookup st.table (getComponent m p) = none) :
    renderStep m (st, acc) p =
      (⟨(colorNext st.hue).1, st.table ++ [(getComponent m p, (colorNext st.hue).2)]⟩,
        acc ++ [(colorNext st.hue).2]) := by
  simp only [renderStep, h]

/-- The render fold only appends to the color table, and every appended
entry is keyed by the component of some processed pixel that was absent
before. -/
lemma renderFold_ext (m : CMap) (l : List (ℕ × ℕ)) :
    ∀ (st : RenderState) (acc : List (ℤ × ℤ × ℤ)),
      ∃ ext, (l.foldl (renderStep m) (st, acc)).1.table = st.table ++ ext ∧
        ∀ e ∈ ext, alookup st.table e.1 = none ∧ ∃ p ∈ l, getComponent m p = e.1 := by
  induction l with
  | nil =>
    intro st acc
    exact ⟨[], by simp, by simp⟩
  | cons p l ih =>
    intro st acc
    rw [List.foldl_cons]
    cases hl : alookup st.table (getComponent m p) with
    | some col =>
      rw [renderStep_hit m st acc p col hl]
      obtain ⟨ext, h1, h2⟩ := ih st (acc ++ [col])
      refine ⟨ext, h1, ?_⟩
      intro e he
      obtain ⟨hn, q, hq, hq2⟩ := h2 e he
      exact ⟨hn, q, List.mem_cons_of_mem _ hq, hq2⟩
    | none =>
      rw [renderStep_miss m st acc p hl]
      obtain ⟨ext, h1, h2⟩ :=
        ih ⟨(colorNext st.hue).1, st.table ++ [(getComponent m p, (colorNext st.hue).2)]⟩
          (acc ++ [(colorNext st.hue).2])
      refine ⟨(getComponent m p, (colorNext st.hue).2) :: ext, ?_, ?_⟩
      · rw [h1]
        simp
      · intro e he
        rcases List.mem_cons.mp he with heq | he2
        · rw [heq]
          exact ⟨hl, p, List.mem_cons_self _ _, rfl⟩
        · obtain ⟨hn, q, hq, hq2⟩ := h2 e he2
          exact ⟨alookup_append_none_inv _ _ _ hn, q, List.mem_cons_of_mem _ hq, hq2⟩

/-- Every emitted color is the final table's color for the pixel's
component: the color table is only ever appended to, so the lookup at
emission time agrees with the final table. -/
lemma renderFold_data (m : CMap) (l : List (ℕ × ℕ)) :
    ∀ (st : RenderState) (acc : List (ℤ × ℤ × ℤ)),
      (l.foldl (renderStep m) (st, acc)).2 =
        acc ++ l.map (fun p =>
          (alookup (l.foldl (renderStep m) (st, acc)).1.table
            (getComponent m p)).getD (0, 0, 0)) := by
  induction l with
  | nil =>
    intro st acc
    simp
  | cons p l ih =>
    intro st acc
    rw [List.foldl_cons]
    cases hl : alookup st.table (getComponent m p) with
    | some col =>
      rw [renderStep_hit m st acc p col hl, ih st (acc ++ [col])]
      obtain ⟨ext, h1, _⟩ := renderFold_ext m l st (acc ++ [col])
      have hfin : alookup (l.foldl (renderStep m) (st, acc ++ [col])).1.table
          (getComponent m p) = some col := by
        rw [h1]
        exact alookup_append_of_some _ _ _ _ hl
      rw [List.map_cons, hfin]
      simp
    | none =>
      rw [renderStep_miss m st acc p hl]
      rw [ih ⟨(colorNext st.hue).1,
        st.table ++ [(getComponent m p, (colorNext st.hue).2)]⟩
        (acc ++ [(colorNext st.hue).2])]
      obtain ⟨ext, h1, _⟩ := renderFold_ext m l
        ⟨(colorNext st.hue).1, st.table ++ [(getComponent m p, (colorNext st.hue).2)]⟩
        (acc ++ [(colorNext st.hue).2])
      have hst1 : alookup (st.table ++ [(getComponent m p, (colorNext st.hue).2)])
          (getComponent m p) = some (colorNext st.hue).2 := by
        rw [alookup_append_of_none _ _ _ hl]
        exact alookup_singleton_self _ _
      have hfin : alookup (l.foldl (renderStep m)
          (⟨(colorNext st.hue).1, st.table ++ [(getComponent m p, (colorNext st.hue).2)]⟩,
            acc ++ [(colorNext st.hue).2])).1.table
          (getComponent m p) = some (colorNext st.hue).2 := by
        rw [h1]
        exact alookup_append_of_some _ _ _ _ hst1
      rw [List.map_cons, hfin]
      simp

/-- The render fold keeps table keys unique. -/
lemma renderFold_keysNodup (m : CMap) (l : List (ℕ × ℕ)) :
    ∀ (st : RenderState) (acc : List (ℤ × ℤ × ℤ)),
      (st.table.map Prod.fst).Nodup →
      (((l.foldl (renderStep m) (st, acc)).1.table).map Prod.fst).Nodup := by
  induction l with
  | nil =>
    intro st acc h
    exact h
  | cons p l ih =>
    intro st acc h
    rw [List.foldl_cons]
    cases hl : alookup st.table (getComponent m p) with
    | some col =>
      rw [renderStep_hit m st acc p col hl]
      exact ih st _ h
    | none =>
      rw [renderStep_miss m st acc p hl]
      refine ih _ _ ?_
      rw [List.map_append]
      simp [List.nodup_append, h, (alookup_eq_none_iff _ _).mp hl]

/-- Any component of a processed pixel (and anything already present)
has an entry in the final color table. -/
lemma renderFold_key_mem (m : CMap) (l : List (ℕ × ℕ)) :
    ∀ (st : RenderState) (acc : List (ℤ × ℤ × ℤ)) (o : Option ℕ),
      ((∃ p ∈ l, getComponent m p = o) ∨ (alookup st.table o).isSome) →
      (alookup ((l.foldl (renderStep m) (st, acc)).1.table) o).isSome := by
  induction l with
  | nil =>
    intro st acc o h
    rcases h with ⟨p, hp, _⟩ | h
    · exact absurd hp (List.not_mem_nil _)
    · exact h
  | cons p l ih =>
    intro st acc o h
    rw [List.foldl_cons]
    cases hl : alookup st.table (getComponent m p) with
    | some col =>
      rw [renderStep_hit m st acc p col hl]
      refine ih st _ o ?_
      rcases h with ⟨q, hq, hq2⟩ | h
      · rcases List.mem_cons.mp hq with heq | hq3
        · right
          rw [← hq2, heq, hl]
          rfl
        · exact Or.inl ⟨q, hq3, hq2⟩
      · exact Or.inr h
    | none =>
      rw [renderStep_miss m st acc p hl]
      refine ih _ _ o ?_
      rcases h with ⟨q, hq, hq2⟩ | h
      · rcases List.mem_cons.mp hq with heq | hq3
        · right
          rw [← hq2, heq]
          rw [alookup_append_of_none _ _ _ hl, alookup_singleton_self]
          rfl
        · exact Or.inl ⟨q, hq3, hq2⟩
      · right
        obtain ⟨c, hc⟩ := Option.isSome_iff_exists.mp h
        rw [alookup_append_of_some _ _ _ _ hc]
        rfl

/-- The rendered color of an in-bounds coordinate is the final color
table's entry for its component. -/
lemma renderedAt_eq (w h : ℕ) (m : CMap) (p : ℕ × ℕ) (hw : p.1 < w) (hh : p.2 < h) :
    renderedAt w h m p =
      (alookup (renderAll w h m).1.table (getComponent m p)).getD (0, 0, 0) := by
  unfold renderedAt colorCodeComponents renderAll rasterIndex
  rw [renderFold_data m (iterpixels w h) ⟨0, [(none, (0, 0, 0))]⟩ [], List.nil_append,
    List.getD_eq_getElem?_getD, List.getElem?_map, iterpixels_getElem w h p hw hh]
  rfl

/-- The background entry of the color table stays at black. -/
lemma renderTable_none (w h : ℕ) (m : CMap) :
    alookup (renderAll w h m).1.table none = some (0, 0, 0) := by
  unfold renderAll
  obtain ⟨ext, h1, _⟩ := renderFold_ext m (iterpixels w h) ⟨0, [(none, (0, 0, 0))]⟩ []
  rw [h1]
  exact alookup_append_of_some _ _ _ _ (alookup_singleton_self _ _)

/-- C6: every background pixel — a coordinate with no entry in the
`ComponentMap` — is rendered as exactly (0,0,0), for any component map
and regardless of how many colors the generator has produced
(`color_map[None]` is preset to black and never overwritten). -/
theorem background_rendered_black (w h : ℕ) (m : CMap) (p : ℕ × ℕ)
    (hw : p.1 < w) (hh : p.2 < h) (hbg : getComponent m p = none) :
    renderedAt w h m p = (0, 0, 0) := by
  rw [renderedAt_eq w h m p hw hh, hbg, renderTable_none]
  rfl

/-- Witness for C6 on the 1×1 all-background image. -/
theorem background_rendered_black_witness :
    (0 : ℕ) < 1 ∧ getComponent CMap.init (0, 0) = none ∧
      renderedAt 1 1 CMap.init (0, 0) = (0, 0, 0) :=
  ⟨by decide, by decide,
    background_rendered_black 1 1 CMap.init (0, 0) (by decide) (by decide) (by decide)⟩

/-- C2: after `find_components` completes, any two foreground
coordinates of the same connected component carry the same label in the
`ComponentMap`, and therefore receive the same color in the rendered
output of `color_code_components`. -/
theorem sameComponent_sameLabel_sameColor (im : Image1) (a b : ℕ × ℕ)
    (ha : fgCell im a) (hb : fgCell im b) (hconn : conn (fgCell im) a b) :
    ∃ m, findComponents im = .ok m ∧ getComponent m a = getComponent m b ∧
      renderedAt im.width im.height m a = renderedAt im.width im.height m b := by
  obtain ⟨m, hok, inv⟩ := findComponents_inv im
  have hlab := label_eq_of_conn im m inv a b hconn
  refine ⟨m, hok, hlab, ?_⟩
  rw [renderedAt_eq _ _ m a ha.1 ha.2.1, renderedAt_eq _ _ m b hb.1 hb.2.1, hlab]

/-- Witness for C2 on the two horizontally adjacent foreground pixels of
a 2×1 image. -/
theorem sameComponent_sameLabel_sameColor_witness :
    fgCell imgPair (0, 0) ∧ fgCell imgPair (1, 0) ∧
      ∃ m, findComponents imgPair = .ok m ∧
        getComponent m (0, 0) = getComponent m (1, 0) ∧
        renderedAt imgPair.width imgPair.height m (0, 0) =
          renderedAt imgPair.width imgPair.height m (1, 0) :=
  ⟨by decide, by decide,
    sameComponent_sameLabel_sameColor imgPair (0, 0) (1, 0) (by decide) (by decide)
      (Relation.ReflTransGen.single ⟨by decide, by decide, by decide⟩)⟩

/-- Looking a non-background key up in the initial color table misses. -/
lemma alookup_init_table (o : Option ℕ) (ho : o ≠ none) :
    alookup [((none : Option ℕ), ((0 : ℤ), (0 : ℤ), (0 : ℤ)))] o = none := by
  show (if none = o then some ((0 : ℤ), (0 : ℤ), (0 : ℤ)) else alookup [] o) = none
  rw [if_neg (fun h => ho h.symm)]
  rfl

/-- C8: on every input the scan succeeds and the count printed by `main`
(`len(component_map)`, the number of distinct stored label values, among
which background never appears) is exactly the size of the renderer's
final color table minus its one background entry — i.e. the number of
distinct colors assigned to components. -/
theorem mainPrinted_distinct (im : Image1) :
    ∃ m, findComponents im = .ok m ∧ mainPrinted m = lenCM m ∧
      mainPrinted m + 1 = ((renderAll im.width im.height m).1.table).length := by
  obtain ⟨m, hok, inv⟩ := findComponents_inv im
  refine ⟨m, hok, rfl, ?_⟩
  obtain ⟨ext, h1, h2⟩ :=
    renderFold_ext m (iterpixels im.width im.height) ⟨0, [(none, (0, 0, 0))]⟩ []
  have hnodup : (((renderAll im.width im.height m).1.table).map Prod.fst).Nodup := by
    unfold renderAll
    exact renderFold_keysNodup m _ _ [] (by simp)
  rw [show (renderAll im.width im.height m).1.table =
    [(none, ((0 : ℤ), (0 : ℤ), (0 : ℤ)))] ++ ext from h1] at hnodup ⊢
  have hnodup2 : ((none : Option ℕ) :: ext.map Prod.fst).Nodup := by
    simpa using hnodup
  have hextnd : (ext.map Prod.fst).Nodup := (List.nodup_cons.mp hnodup2).2
  have hnonotin : none ∉ ext.map Prod.fst := (List.nodup_cons.mp hnodup2).1
  have hmem : ∀ o, o ∈ ext.map Prod.fst ↔
      ∃ v, o = some v ∧ v ∈ (m.component_map.map Prod.snd).toFinset := by
    intro o
    constructor
    · intro ho
      obtain ⟨e, he, he1⟩ := List.mem_map.mp ho
      obtain ⟨hn, p, hp, hp2⟩ := h2 e he
      obtain ⟨v, hv⟩ : ∃ v, e.1 = some v := by
        cases he2 : e.1 with
        | none =>
          rw [he2] at hn
          rw [alookup_singleton_self] at hn
          cases hn
        | some v => exact ⟨v, rfl⟩
      refine ⟨v, by rw [← he1, hv], ?_⟩
      rw [List.mem_toFinset]
      refine List.mem_map.mpr ⟨(p, v), ?_, rfl⟩
      exact alookup_mem _ _ _ (show getComponent m p = some v by rw [hp2, hv])
    · rintro ⟨v, rfl, hv⟩
      obtain ⟨k, hk⟩ := value_has_cell im m inv v hv
      have hkmem : k ∈ iterpixels im.width im.height :=
        ((inv.dom k).mp (by rw [hk]; rfl)).1
      have hfin := renderFold_key_mem m (iterpixels im.width im.height)
        ⟨0, [(none, (0, 0, 0))]⟩ [] (some v) (Or.inl ⟨k, hkmem, hk⟩)
      have hkeys : some v ∈ (((iterpixels im.width im.height).foldl (renderStep m)
          (⟨0, [(none, (0, 0, 0))]⟩, [])).1.table).map Prod.fst :=
        (alookup_isSome_iff _ _).mp hfin
      have h1b : ((iterpixels im.width im.height).foldl (renderStep m)
          (⟨0, [(none, (0, 0, 0))]⟩, [])).1.table =
          [(none, ((0 : ℤ), (0 : ℤ), (0 : ℤ)))] ++ ext := h1
      rw [h1b] at hkeys
      have hkeys2 : some v ∈ (none : Option ℕ) :: ext.map Prod.fst := by
        simpa using hkeys
      rcases List.mem_cons.mp hkeys2 with hc | hc
      · cases hc
      · exact hc
  have hcard : (ext.map Prod.fst).toFinset =
      (m.component_map.map Prod.snd).toFinset.image some := by
    ext o
    rw [List.mem_toFinset, hmem o, Finset.mem_image]
    constructor
    · rintro ⟨v, rfl, hv⟩
      exact ⟨v, hv, rfl⟩
    · rintro ⟨v, hv, rfl⟩
      exact ⟨v, rfl, hv⟩
  have hlen : ext.length = lenCM m := by
    have e1 : ext.length = (ext.map Prod.fst).length := (List.length_map _ _).symm
    have e2 : (ext.map Prod.fst).length = (ext.map Prod.fst).toFinset.card :=
      (List.toFinset_card_of_nodup hextnd).symm
    have e3 : ((m.component_map.map Prod.snd).toFinset.image some).card =
        (m.component_map.map Prod.snd).toFinset.card :=
      Finset.card_image_of_injective _ (Option.some_injective ℕ)
    have e4 : (m.component_map.map Prod.snd).toFinset.card = lenCM m :=
      List.card_toFinset _
    rw [e1, e2, hcard, e3, e4]
  rw [List.length_append, hlen]
  show lenCM m + 1 = 1 + lenCM m
  omega

end Components
